import Mathlib

/-
Verification of the face-recognition web application (src/app.py).

The repository serves two Flask routes: /upload (enrollment, handler
get_image) and /predictImage (recognition, handler predict_image).  Both
read an uploaded file, detect and crop a face (get_face), run the FaceNet
forward pass (forward_pass), and either persist the embedding under a
label derived from the filename (enrollment) or compare it against the
stored embeddings (recognition).

The handlers are embedded as pure functions from a request plus oracle
functions (the detector and the embedding network are opaque
collaborators) to an optional rendered response paired with the ordered
list of side effects the handler performs.  Helper functions that live in
the repository module utils (not present under src/) and the external
sanitizer werkzeug.secure_filename are modelled from the specification,
as marked in their doc comments.
-/

namespace FaceRec

/-- Characters that the Python str.split method treats as whitespace, by
code point: space 32, tab 9, newline 10, carriage return 13, vertical
tab 11, form feed 12. -/
def isPySpace (c : Char) : Bool :=
  c.toNat = 32 || c.toNat = 9 || c.toNat = 10 || c.toNat = 13 ||
    c.toNat = 11 || c.toNat = 12

/-- Characters kept by the werkzeug sanitizer filter step, by code
point: the regex keeps ASCII uppercase letters (65 to 90), lowercase
letters (97 to 122), digits (48 to 57), underscore 95, dot 46 and
hyphen 45. -/
def isSafeChar (c : Char) : Bool :=
  (65 ≤ c.toNat && c.toNat ≤ 90) || (97 ≤ c.toNat && c.toNat ≤ 122) ||
    (48 ≤ c.toNat && c.toNat ≤ 57) || c.toNat = 95 || c.toNat = 46 || c.toNat = 45

/-- Characters removed from both ends by the final strip step of the
sanitizer: dot 46 and underscore 95. -/
def isStripChar (c : Char) : Bool :=
  c.toNat = 46 || c.toNat = 95

/-- First sanitizer step: the NFKD-normalize-then-encode-ascii step keeps
ASCII characters unchanged and drops characters with no ASCII image. -/
def keepAscii (l : List Char) : List Char :=
  l.filter (fun c => c.toNat < 128)

/-- Second sanitizer step: the path separator (slash, code point 47) is
replaced by a space. -/
def replaceSep (l : List Char) : List Char :=
  l.map (fun c => if c.toNat = 47 then ' ' else c)

/-- Python str.split with no argument: splits on runs of whitespace and
drops empty pieces (so leading and trailing whitespace vanishes).  A
whitespace character is skipped; a non-whitespace character starts a new
piece when the next character is whitespace or the end, and otherwise
joins the piece started by the rest of the list. -/
def pySplitWs : List Char → List (List Char)
  | [] => []
  | c :: rest =>
    let ws := pySplitWs rest
    if isPySpace c then ws
    else if rest.head?.elim true isPySpace then [c] :: ws
    else (c :: ws.headD []) :: ws.tail

/-- Python underscore.join: concatenates the pieces with an underscore
between consecutive pieces. -/
def joinUnderscore : List (List Char) → List Char
  | [] => []
  | [w] => w
  | w :: ws => w ++ '_' :: joinUnderscore ws

/-- Third sanitizer step: keep only the safe characters. -/
def keepSafe (l : List Char) : List Char :=
  l.filter isSafeChar

/-- Final sanitizer step: strip dots and underscores from both ends. -/
def stripEnds (l : List Char) : List Char :=
  ((l.dropWhile isStripChar).reverse.dropWhile isStripChar).reverse

/-- Modelled from the spec: the filename sanitizer applied by the
enrollment handler before storing anything (werkzeug secure_filename, an
external collaborator outside src/).  Following its documented algorithm:
normalize to ASCII, replace path separators by spaces, join the
whitespace-split pieces with underscores, drop unsafe characters, and
strip dots and underscores from both ends. -/
def secure_filename (f : String) : String :=
  ⟨stripEnds (keepSafe (joinUnderscore (pySplitWs (replaceSep (keepAscii f.data)))))⟩

/-- The part of a filename after its last dot (the file extension,
without the dot); the whole string when the filename has no dot.  Used
by the upload validation model. -/
def extPart (f : String) : String :=
  ⟨(f.data.reverse.takeWhile (fun c => c ≠ '.')).reverse⟩

/-- ASCII lowercasing of one character: uppercase letters (code points
65 to 90) move down by 32 code points, everything else is unchanged. -/
def lowerChar (c : Char) : Char :=
  if 65 ≤ c.toNat ∧ c.toNat ≤ 90 then Char.ofNat (c.toNat + 32) else c

/-- Lowercasing of a string, character by character. -/
def lowerStr (s : String) : String :=
  ⟨s.data.map lowerChar⟩

/-- The allowed image formats for upload, from src/app.py line 30. -/
def allowed_set : List String := ["png", "jpg", "jpeg"]

/-- Modelled from the spec: utils.allowed_file is not under src/.  The
spec treats upload validation as an extension check; the filename must
contain a dot and the lowercased part after the last dot must be in
the allowed set. -/
def allowed_file (f : String) (allowedSet : List String) : Bool :=
  f.data.contains '.' && allowedSet.contains (lowerStr (extPart f))

/-- Modelled from the spec: utils.remove_file_extension is not under
src/.  The label is derived by stripping the file extension from the
filename: everything from the last dot on is removed; a filename with
no dot is unchanged. -/
def remove_file_extension (f : String) : String :=
  if f.data.contains '.' then ⟨((f.data.reverse.dropWhile (fun c => c ≠ '.')).tail).reverse⟩
  else f

/-- HTTP method of a request, as distinguished by the handlers. -/
inductive Method where
  | get
  | post
deriving DecidableEq, Repr

/-- An upload request as the handlers see it: the HTTP method, whether
the POST carries a file field, the filename of the uploaded file, and
its image content (abstract). -/
structure UploadRequest (Img : Type) where
  method : Method
  hasFileField : Bool
  filename : String
  content : Img

/-- The pages a handler can render.  Each constructor records one
render_template call in src/app.py:
warningNoFileField: warning.html, status No file field in POST request.
warningNoSelectedFile: warning.html, status No selected file.
warningPostRequired: warning.html, status POST HTTP method required.
uploadSuccess: upload_result.html, status Image uploaded and embedded
successfully.
uploadNoFace: upload_result.html, status Image upload was unsuccessful,
no human face was detected.
predictIdentity: predict_result.html with the identity string computed
by identify_face.
predictNoEmbeddings: predict_result.html, identity No embedding files
detected, please upload image files for embedding.
predictNoFace: predict_result.html, identity Operation was unsuccessful,
no human face was detected. -/
inductive Response where
  | warningNoFileField
  | warningNoSelectedFile
  | warningPostRequired
  | uploadSuccess
  | uploadNoFace
  | predictIdentity (identity : String)
  | predictNoEmbeddings
  | predictNoFace
deriving DecidableEq, Repr

/-- The observable side effects a handler can perform, in program order:
running the FaceNet forward pass on a face crop, saving a cropped image
under a filename in the uploads folder, saving an embedding under a
label in the embeddings folder, scanning the embeddings folder
(load_embeddings), and comparing an embedding against the loaded
snapshot (identify_face). -/
inductive Effect (Img Emb : Type) where
  | forwardPassE (crop : Img)
  | saveImageE (crop : Img) (filename : String)
  | saveEmbeddingE (emb : Emb) (label : String)
  | loadEmbeddingsE
  | identifyE (emb : Emb)
deriving DecidableEq, Repr

/-- Whether an effect writes to the uploads folder or to the embeddings
folder (save_image or save_embedding). -/
def Effect.isWrite {Img Emb : Type} : Effect Img Emb → Bool
  | .saveImageE _ _ => true
  | .saveEmbeddingE _ _ => true
  | _ => false

/-- The enrollment handler get_image (src/app.py lines 50 to 127) as a
pure function.  Oracles: getFace is utils.get_face partially applied to
the MTCNN networks (none when no face is detected); forwardPass is
utils.forward_pass partially applied to the persistent session.  The
result is the rendered page (none when the handler falls off the end of
the function and Flask receives None) paired with the ordered effects.
The truthiness test on the file object in the source (a Flask
FileStorage is truthy exactly when its filename is nonempty) is mirrored
by the filename check in the guard. -/
def get_image {Img Emb : Type} [DecidableEq Img] (getFace : Img → Option Img)
    (forwardPass : Img → Emb) (req : UploadRequest Img) :
    Option Response × List (Effect Img Emb) :=
  match req.method with
  | .post =>
    if req.hasFileField = false then (some .warningNoFileField, [])
    else if req.filename = "" then (some .warningNoSelectedFile, [])
    else if req.filename != "" && allowed_file req.filename allowed_set then
      let fname := secure_filename req.filename
      match getFace req.content with
      | some crop =>
        let emb := forwardPass crop
        let label := remove_file_extension fname
        (some .uploadSuccess,
          [.forwardPassE crop, .saveImageE crop fname, .saveEmbeddingE emb label])
      | none => (some .uploadNoFace, [])
    else (none, [])
  | .get => (some .warningPostRequired, [])

/-- The recognition handler predict_image (src/app.py lines 130 to 205)
as a pure function.  loadedStore is the mapping that the per-request
load_embeddings scan of the embeddings folder returns; identifyF is
utils.identify_face, returning the rendered identity string.  The
Python truthiness test on the returned dict is an emptiness test. -/
def predict_image {Img Emb : Type} [DecidableEq Img] (getFace : Img → Option Img)
    (forwardPass : Img → Emb) (loadedStore : List (String × Emb))
    (identifyF : Emb → List (String × Emb) → String) (req : UploadRequest Img) :
    Option Response × List (Effect Img Emb) :=
  match req.method with
  | .post =>
    if req.hasFileField = false then (some .warningNoFileField, [])
    else if req.filename = "" then (some .warningNoSelectedFile, [])
    else if req.filename != "" && allowed_file req.filename allowed_set then
      match getFace req.content with
      | some crop =>
        let emb := forwardPass crop
        match loadedStore with
        | [] => (some .predictNoEmbeddings, [.forwardPassE crop, .loadEmbeddingsE])
        | _ :: _ =>
          (some (.predictIdentity (identifyF emb loadedStore)),
            [.forwardPassE crop, .loadEmbeddingsE, .identifyE emb])
      | none => (some .predictNoFace, [])
    else (none, [])
  | .get => (some .warningPostRequired, [])

/-- Squared Euclidean distance between two vectors, rational entries. -/
def distSq (q v : List ℚ) : ℚ :=
  ((q.zip v).map (fun p => (p.1 - p.2) ^ 2)).sum

/-- Outcome of identification: a matched label, no match under the
threshold, or an empty enrolled population. -/
inductive IdOutcome where
  | identityFound (label : String)
  | unknown
  | noEnrollments
deriving DecidableEq, Repr

/-- Left-to-right scan for the minimum-distance entry, keeping the
current best label and best squared distance and replacing it only on a
strictly smaller distance (so the first of several tied minima wins). -/
def bestFrom (q : List ℚ) : String → ℚ → List (String × List ℚ) → String × ℚ
  | l, d, [] => (l, d)
  | l, d, (l2, v) :: rest =>
    if distSq q v < d then bestFrom q l2 (distSq q v) rest else bestFrom q l d rest

/-- Modelled from the spec: utils.identify_face is not under src/.  The
identification engine computes the Euclidean distance from the query to
every vector of the snapshot, selects the minimum-distance entry
(first-encountered entry on a tie, a deterministic tie-break), and
accepts exactly when the minimum distance is at most the threshold; an
empty snapshot is the distinct no-enrollments outcome.  The acceptance
test compares squared distance against squared threshold, which for a
nonnegative threshold is exactly the inclusive comparison of Euclidean
distance against the threshold. -/
def identify (q : List ℚ) (snapshot : List (String × List ℚ)) (t : ℚ) : IdOutcome :=
  match snapshot with
  | [] => .noEnrollments
  | (l, v) :: rest =>
    let best := bestFrom q l (distSq q v) rest
    if best.2 ≤ t * t then .identityFound best.1 else .unknown

/-- Modelled from the spec: utils.save_embedding is not under src/.
The embedding store is one file per label in the embeddings folder,
modelled as the list of (label, vector) entries of that folder; saving
writes the vector under the label, replacing any file of that label. -/
def save (store : List (String × List ℚ)) (label : String) (v : List ℚ) :
    List (String × List ℚ) :=
  store.filter (fun e => e.1 != label) ++ [(label, v)]

/-- Modelled from the spec: utils.load_embeddings is not under src/.
Loading enumerates the persisted entries and returns the mapping from
labels to vectors. -/
def loadAll (store : List (String × List ℚ)) : List (String × List ℚ) :=
  store

/-- Phase of one request-handler thread with respect to the shared
inference session: not interested, waiting for the lock, running an
inference call, or finished. -/
inductive Phase where
  | idle
  | waiting
  | running
  | done
deriving DecidableEq, Repr

/-- Global state of the Inference Gateway lock discipline for n
request-handler threads: the phase of every thread and the thread
currently holding the mutual-exclusion lock, if any. -/
structure GwState (n : ℕ) where
  phase : Fin n → Phase
  owner : Option (Fin n)

/-- Initial gateway state: every thread idle, the lock free. -/
def gwInit (n : ℕ) : GwState n :=
  ⟨fun _ => .idle, none⟩

/-- Modelled from the spec: the mutual-exclusion discipline of the
Inference Gateway (the gateway internals around the persistent session,
utils.forward_pass and utils.get_face, are not under src/).  A thread
may start waiting for the lock, may acquire the free lock and enter its
inference call, and may leave its inference call releasing the lock;
callers block while waiting (a waiting thread has no step other than
acquiring the free lock). -/
inductive GwStep {n : ℕ} : GwState n → GwState n → Prop
  | request (i : Fin n) (s : GwState n) :
      s.phase i = .idle → GwStep s ⟨Function.update s.phase i .waiting, s.owner⟩
  | acquire (i : Fin n) (s : GwState n) :
      s.phase i = .waiting → s.owner = none →
      GwStep s ⟨Function.update s.phase i .running, some i⟩
  | release (i : Fin n) (s : GwState n) :
      s.phase i = .running → s.owner = some i →
      GwStep s ⟨Function.update s.phase i .done, none⟩

/-- States reachable from the initial gateway state by lock steps. -/
inductive GwReachable {n : ℕ} : GwState n → Prop
  | init : GwReachable (gwInit n)
  | step {s s2 : GwState n} : GwReachable s → GwStep s s2 → GwReachable s2

/-- C1: for every uploaded image in which the face detector finds no
face (get_face returns no crop), both the enrollment handler get_image
and the recognition handler predict_image render the
no-human-face-was-detected outcome, and the forward pass is not invoked
on that request (no forward-pass effect occurs in either trace). -/
theorem c1_no_face_no_forward_pass {Img Emb : Type} [DecidableEq Img]
    (getFace : Img → Option Img) (forwardPass : Img → Emb)
    (loadedStore : List (String × Emb)) (identifyF : Emb → List (String × Emb) → String)
    (req : UploadRequest Img)
    (hm : req.method = .post) (hff : req.hasFileField = true)
    (hn : req.filename ≠ "") (ha : allowed_file req.filename allowed_set = true)
    (hface : getFace req.content = none) :
    get_image getFace forwardPass req = (some Response.uploadNoFace, []) ∧
    predict_image getFace forwardPass loadedStore identifyF req =
      (some Response.predictNoFace, []) ∧
    (∀ c : Img,
      @Effect.forwardPassE Img Emb c ∉ (get_image getFace forwardPass req).2) ∧
    (∀ c : Img,
      Effect.forwardPassE c ∉ (predict_image getFace forwardPass loadedStore identifyF req).2) := by
  obtain ⟨m, hf, fn, ct⟩ := req
  simp only at hm hff hn ha hface
  cases m
  case get => exact absurd hm (by simp)
  case post =>
    cases hf
    case false => exact absurd hff (by simp)
    case true =>
      refine ⟨?_, ?_, ?_, ?_⟩ <;>
        simp [get_image, predict_image, hface, hn, ha]

/-- Witness for C1 at a concrete request with no detectable face. -/
theorem c1_no_face_no_forward_pass_witness :
    get_image (fun _ : Nat => none) (fun _ => 0) ⟨.post, true, "a.png", 7⟩ =
      (some Response.uploadNoFace, []) ∧
    predict_image (fun _ : Nat => none) (fun _ => 0) [] (fun _ _ => "x")
      ⟨.post, true, "a.png", 7⟩ = (some Response.predictNoFace, []) ∧
    (∀ c : Nat, @Effect.forwardPassE Nat Nat c ∉
      (get_image (fun _ : Nat => none) (fun _ => 0) ⟨.post, true, "a.png", 7⟩).2) ∧
    (∀ c : Nat, Effect.forwardPassE c ∉
      (predict_image (fun _ : Nat => none) (fun _ => 0) [] (fun _ _ => "x")
        ⟨.post, true, "a.png", 7⟩).2) :=
  c1_no_face_no_forward_pass _ _ _ _ _ rfl rfl (by decide) (by decide) rfl

/-- C3: for every query against an empty loaded store, recognition
renders the distinct no-embedding-files-detected outcome (not a
predictIdentity page, in particular not Unknown), and the
identification comparison effect does not occur, for every query vector
and identification function. -/
theorem c3_empty_store_distinct_outcome {Img Emb : Type} [DecidableEq Img]
    (getFace : Img → Option Img) (forwardPass : Img → Emb)
    (loadedStore : List (String × Emb)) (identifyF : Emb → List (String × Emb) → String)
    (req : UploadRequest Img) (crop : Img)
    (hm : req.method = .post) (hff : req.hasFileField = true)
    (hn : req.filename ≠ "") (ha : allowed_file req.filename allowed_set = true)
    (hface : getFace req.content = some crop) (hstore : loadedStore = []) :
    predict_image getFace forwardPass loadedStore identifyF req =
      (some Response.predictNoEmbeddings,
        [Effect.forwardPassE crop, Effect.loadEmbeddingsE]) ∧
    (∀ e : Emb, @Effect.identifyE Img Emb e ∉
      (predict_image getFace forwardPass loadedStore identifyF req).2) ∧
    (∀ s : String,
      (predict_image getFace forwardPass loadedStore identifyF req).1 ≠
        some (Response.predictIdentity s)) := by
  subst hstore
  obtain ⟨m, hf, fn, ct⟩ := req
  simp only at hm hff hn ha hface
  cases m
  case get => exact absurd hm (by simp)
  case post =>
    cases hf
    case false => exact absurd hff (by simp)
    case true =>
      refine ⟨?_, ?_, ?_⟩ <;> simp [predict_image, hface, hn, ha]

/-- Witness for C3 at a concrete request with a face and an empty
store. -/
theorem c3_empty_store_distinct_outcome_witness :
    predict_image (fun _ : Nat => some 1) (fun _ => (2 : Nat)) [] (fun _ _ => "x")
      ⟨.post, true, "a.png", 7⟩ =
      (some Response.predictNoEmbeddings,
        [Effect.forwardPassE 1, Effect.loadEmbeddingsE]) ∧
    (∀ e : Nat, @Effect.identifyE Nat Nat e ∉
      (predict_image (fun _ : Nat => some 1) (fun _ => (2 : Nat)) [] (fun _ _ => "x")
        ⟨.post, true, "a.png", 7⟩).2) ∧
    (∀ s : String,
      (predict_image (fun _ : Nat => some 1) (fun _ => (2 : Nat)) [] (fun _ _ => "x")
        ⟨.post, true, "a.png", 7⟩).1 ≠ some (Response.predictIdentity s)) :=
  c3_empty_store_distinct_outcome _ _ _ _ _ 1 rfl rfl (by decide) (by decide) rfl rfl

/-- C6: for every recognition request in which a face is found and the
loaded store is nonempty, the handler performs, in order, the forward
pass, the per-request load of the persisted embeddings, and the
identification against exactly that freshly loaded snapshot, and
renders the identity that the identification returns on it. -/
theorem c6_recognition_effect_order {Img Emb : Type} [DecidableEq Img]
    (getFace : Img → Option Img) (forwardPass : Img → Emb)
    (loadedStore : List (String × Emb)) (identifyF : Emb → List (String × Emb) → String)
    (req : UploadRequest Img) (crop : Img)
    (hm : req.method = .post) (hff : req.hasFileField = true)
    (hn : req.filename ≠ "") (ha : allowed_file req.filename allowed_set = true)
    (hface : getFace req.content = some crop) (hstore : loadedStore ≠ []) :
    predict_image getFace forwardPass loadedStore identifyF req =
      (some (Response.predictIdentity (identifyF (forwardPass crop) loadedStore)),
        [Effect.forwardPassE crop, Effect.loadEmbeddingsE,
          Effect.identifyE (forwardPass crop)]) := by
  obtain ⟨m, hf, fn, ct⟩ := req
  simp only at hm hff hn ha hface
  cases m
  case get => exact absurd hm (by simp)
  case post =>
    cases hf
    case false => exact absurd hff (by simp)
    case true =>
      cases loadedStore with
      | nil => exact absurd rfl hstore
      | cons p rest => simp [predict_image, hface, hn, ha]

/-- Witness for C6 at a concrete request with a face and a nonempty
store. -/
theorem c6_recognition_effect_order_witness :
    predict_image (fun _ : Nat => some 1) (fun _ => (2 : Nat)) [("a", 3)] (fun _ _ => "a")
      ⟨.post, true, "a.png", 7⟩ =
      (some (Response.predictIdentity "a"),
        [Effect.forwardPassE 1, Effect.loadEmbeddingsE, Effect.identifyE 2]) :=
  c6_recognition_effect_order _ _ _ _ _ 1 rfl rfl (by decide) (by decide) rfl (by decide)

/-- C8: the recognition handler performs no writes: every effect in its
trace, for every request, store and oracle, is neither a save of an
image to the uploads folder nor a save of an embedding to the
embeddings folder. -/
theorem c8_recognition_writes_nothing {Img Emb : Type} [DecidableEq Img]
    (getFace : Img → Option Img) (forwardPass : Img → Emb)
    (loadedStore : List (String × Emb)) (identifyF : Emb → List (String × Emb) → String)
    (req : UploadRequest Img) (e : Effect Img Emb)
    (he : e ∈ (predict_image getFace forwardPass loadedStore identifyF req).2) :
    e.isWrite = false := by
  obtain ⟨m, hf, fn, ct⟩ := req
  cases m
  case get => simp [predict_image] at he
  case post =>
    cases hf
    case false => simp [predict_image] at he
    case true =>
      by_cases h2 : fn = ""
      · simp [predict_image, h2] at he
      · by_cases h3 : allowed_file fn allowed_set = true
        · rcases hgf : getFace ct with _ | crop
          · simp [predict_image, h2, h3, hgf] at he
          · cases loadedStore with
            | nil =>
              simp [predict_image, h2, h3, hgf] at he
              rcases he with rfl | rfl <;> rfl
            | cons p rest =>
              simp [predict_image, h2, h3, hgf] at he
              rcases he with rfl | rfl | rfl <;> rfl
        · simp [predict_image, h2, h3] at he

/-- Witness for C8: the load effect observed in a concrete recognition
trace is not a write. -/
theorem c8_recognition_writes_nothing_witness :
    Effect.isWrite (Effect.loadEmbeddingsE : Effect Nat Nat) = false :=
  c8_recognition_writes_nothing (fun _ : Nat => some 1) (fun _ => (2 : Nat)) [("a", 3)]
    (fun _ _ => "a") ⟨.post, true, "a.png", 7⟩ Effect.loadEmbeddingsE (by decide)

/-- C9: for every POST request carrying a file with a nonempty filename
whose extension is not allowed, both handlers fall through the
allowed-file guard and render nothing: the handler value is none (Flask
receives None) and no effect occurs. -/
theorem c9_disallowed_extension_returns_none {Img Emb : Type} [DecidableEq Img]
    (getFace : Img → Option Img) (forwardPass : Img → Emb)
    (loadedStore : List (String × Emb)) (identifyF : Emb → List (String × Emb) → String)
    (req : UploadRequest Img)
    (hm : req.method = .post) (hff : req.hasFileField = true)
    (hn : req.filename ≠ "") (ha : allowed_file req.filename allowed_set = false) :
    get_image getFace forwardPass req = (none, []) ∧
    predict_image getFace forwardPass loadedStore identifyF req = (none, []) := by
  obtain ⟨m, hf, fn, ct⟩ := req
  simp only at hm hff hn ha
  cases m
  case get => exact absurd hm (by simp)
  case post =>
    cases hf
    case false => exact absurd hff (by simp)
    case true =>
      constructor <;> simp [get_image, predict_image, hn, ha]

/-- Witness for C9 at a concrete request with a disallowed extension. -/
theorem c9_disallowed_extension_returns_none_witness :
    get_image (fun _ : Nat => some 1) (fun _ => (2 : Nat))
      ⟨.post, true, "a.txt", 7⟩ = (none, []) ∧
    predict_image (fun _ : Nat => some 1) (fun _ => (2 : Nat)) [("a", 3)] (fun _ _ => "a")
      ⟨.post, true, "a.txt", 7⟩ = (none, []) :=
  c9_disallowed_extension_returns_none _ _ _ _ _ rfl rfl (by decide) (by decide)

lemma get_image_trace_of_face {Img Emb : Type} [DecidableEq Img]
    (getFace : Img → Option Img) (forwardPass : Img → Emb)
    (req : UploadRequest Img) (crop : Img)
    (hm : req.method = .post) (hff : req.hasFileField = true)
    (hn : req.filename ≠ "") (ha : allowed_file req.filename allowed_set = true)
    (hface : getFace req.content = some crop) :
    get_image getFace forwardPass req =
      (some Response.uploadSuccess,
        [Effect.forwardPassE crop,
          Effect.saveImageE crop (secure_filename req.filename),
          Effect.saveEmbeddingE (forwardPass crop)
            (remove_file_extension (secure_filename req.filename))]) := by
  obtain ⟨m, hf, fn, ct⟩ := req
  simp only at hm hff hn ha hface
  cases m
  case get => exact absurd hm (by simp)
  case post =>
    cases hf
    case false => exact absurd hff (by simp)
    case true => simp [get_image, hface, hn, ha]

/-- C10: for every successful enrollment, the handler saves the cropped
face image (the get_face output, not the original upload) to the
uploads folder under the sanitized filename, and this save comes before
the save of the embedding in the effect order. -/
theorem c10_enrollment_saves_crop_before_embedding {Img Emb : Type} [DecidableEq Img]
    (getFace : Img → Option Img) (forwardPass : Img → Emb)
    (req : UploadRequest Img) (crop : Img)
    (hm : req.method = .post) (hff : req.hasFileField = true)
    (hn : req.filename ≠ "") (ha : allowed_file req.filename allowed_set = true)
    (hface : getFace req.content = some crop) :
    get_image getFace forwardPass req =
      (some Response.uploadSuccess,
        [Effect.forwardPassE crop,
          Effect.saveImageE crop (secure_filename req.filename),
          Effect.saveEmbeddingE (forwardPass crop)
            (remove_file_extension (secure_filename req.filename))]) :=
  get_image_trace_of_face getFace forwardPass req crop hm hff hn ha hface

/-- Witness for C10 at a concrete request with a face. -/
theorem c10_enrollment_saves_crop_before_embedding_witness :
    get_image (fun _ : Nat => some 1) (fun _ => (2 : Nat))
      ⟨.post, true, "a b.png", 7⟩ =
      (some Response.uploadSuccess,
        [Effect.forwardPassE 1,
          Effect.saveImageE 1 "a_b.png",
          Effect.saveEmbeddingE 2 "a_b"]) := by
  have h := c10_enrollment_saves_crop_before_embedding
    (fun _ : Nat => some 1) (fun _ => (2 : Nat)) ⟨.post, true, "a b.png", 7⟩ 1
    rfl rfl (by decide) (by decide) rfl
  simpa using h

lemma distSq_nonneg (q v : List ℚ) : 0 ≤ distSq q v := by
  apply List.sum_nonneg
  intro x hx
  rcases List.mem_map.mp hx with ⟨p, _, rfl⟩
  positivity

lemma bestFrom_spec (q : List ℚ) (rest : List (String × List ℚ)) :
    ∀ (l : String) (d : ℚ),
      (bestFrom q l d rest).2 ≤ d ∧
      (∀ p ∈ rest, (bestFrom q l d rest).2 ≤ distSq q p.2) ∧
      (bestFrom q l d rest = (l, d) ∨
        ∃ p ∈ rest, bestFrom q l d rest = (p.1, distSq q p.2)) := by
  induction rest with
  | nil => intro l d; simp [bestFrom]
  | cons hd tl ih =>
    intro l d
    obtain ⟨l2, v⟩ := hd
    by_cases hlt : distSq q v < d
    · have ih1 := ih l2 (distSq q v)
      simp only [bestFrom, if_pos hlt]
      refine ⟨le_trans ih1.1 (le_of_lt hlt), ?_, ?_⟩
      · intro p hp
        rcases List.mem_cons.mp hp with rfl | hp
        · exact ih1.1
        · exact ih1.2.1 p hp
      · rcases ih1.2.2 with heq | ⟨p, hp, heq⟩
        · exact Or.inr ⟨(l2, v), List.mem_cons_self _ _, heq⟩
        · exact Or.inr ⟨p, List.mem_cons_of_mem _ hp, heq⟩
    · have ih2 := ih l d
      simp only [bestFrom, if_neg hlt]
      push_neg at hlt
      refine ⟨ih2.1, ?_, ?_⟩
      · intro p hp
        rcases List.mem_cons.mp hp with rfl | hp
        · exact le_trans ih2.1 hlt
        · exact ih2.2.1 p hp
      · rcases ih2.2.2 with heq | ⟨p, hp, heq⟩
        · exact Or.inl heq
        · exact Or.inr ⟨p, List.mem_cons_of_mem _ hp, heq⟩

/-- C2: for every query and nonempty snapshot, identification computes
the Euclidean distance from the query to every enrolled vector and
returns the label of a minimum-distance entry exactly when the minimum
distance is at most the threshold (inclusive boundary), and Unknown
exactly when the threshold is exceeded.  The minimum distance here is
the square root of the minimal squared distance d. -/
theorem c2_identify_threshold (q : List ℚ) (snapshot : List (String × List ℚ)) (t : ℚ)
    (hne : snapshot ≠ []) (ht : 0 ≤ t) :
    ∃ l d, 0 ≤ d ∧
      (∃ p ∈ snapshot, p.1 = l ∧ distSq q p.2 = d) ∧
      (∀ p ∈ snapshot, d ≤ distSq q p.2) ∧
      (identify q snapshot t = IdOutcome.identityFound l ↔
        Real.sqrt (d : ℝ) ≤ (t : ℝ)) ∧
      (identify q snapshot t = IdOutcome.unknown ↔
        (t : ℝ) < Real.sqrt (d : ℝ)) := by
  rcases snapshot with _ | ⟨⟨l0, v0⟩, rest⟩
  · exact absurd rfl hne
  · obtain ⟨hle, hall, hcases⟩ := bestFrom_spec q rest l0 (distSq q v0)
    refine ⟨(bestFrom q l0 (distSq q v0) rest).1, (bestFrom q l0 (distSq q v0) rest).2,
      ?_, ?_, ?_, ?_, ?_⟩
    · rcases hcases with heq | ⟨p, _, heq⟩
      · rw [heq]; exact distSq_nonneg q v0
      · rw [heq]; exact distSq_nonneg q p.2
    · rcases hcases with heq | ⟨p, hp, heq⟩
      · exact ⟨(l0, v0), List.mem_cons_self _ _, by rw [heq], by rw [heq]⟩
      · exact ⟨p, List.mem_cons_of_mem _ hp, by rw [heq], by rw [heq]⟩
    · intro p hp
      rcases List.mem_cons.mp hp with rfl | hp
      · exact hle
      · exact hall p hp
    · have hident : identify q ((l0, v0) :: rest) t =
          if (bestFrom q l0 (distSq q v0) rest).2 ≤ t * t
          then IdOutcome.identityFound (bestFrom q l0 (distSq q v0) rest).1
          else IdOutcome.unknown := rfl
      have htr : (0 : ℝ) ≤ (t : ℝ) := by exact_mod_cast ht
      have hb : Real.sqrt ((bestFrom q l0 (distSq q v0) rest).2 : ℝ) ≤ (t : ℝ) ↔
          (bestFrom q l0 (distSq q v0) rest).2 ≤ t * t := by
        rw [Real.sqrt_le_left htr, sq]
        exact_mod_cast Iff.rfl
      rw [hident]
      by_cases hcc : (bestFrom q l0 (distSq q v0) rest).2 ≤ t * t
      · rw [if_pos hcc]
        exact ⟨fun _ => hb.mpr hcc, fun _ => rfl⟩
      · rw [if_neg hcc]
        refine ⟨fun h => absurd h (by simp), fun h => absurd (hb.mp h) hcc⟩
    · have hident : identify q ((l0, v0) :: rest) t =
          if (bestFrom q l0 (distSq q v0) rest).2 ≤ t * t
          then IdOutcome.identityFound (bestFrom q l0 (distSq q v0) rest).1
          else IdOutcome.unknown := rfl
      have htr : (0 : ℝ) ≤ (t : ℝ) := by exact_mod_cast ht
      have hb : Real.sqrt ((bestFrom q l0 (distSq q v0) rest).2 : ℝ) ≤ (t : ℝ) ↔
          (bestFrom q l0 (distSq q v0) rest).2 ≤ t * t := by
        rw [Real.sqrt_le_left htr, sq]
        exact_mod_cast Iff.rfl
      rw [hident, lt_iff_not_le]
      by_cases hcc : (bestFrom q l0 (distSq q v0) rest).2 ≤ t * t
      · rw [if_pos hcc]
        refine ⟨fun h => absurd h (by simp), fun h => absurd (hb.mpr hcc) h⟩
      · rw [if_neg hcc]
        exact ⟨fun _ hs => hcc (hb.mp hs), fun _ => rfl⟩

/-- Witness for C2: the self-match at threshold zero, with one enrolled
vector at distance exactly zero, is accepted (inclusive boundary). -/
theorem c2_identify_threshold_witness :
    ([(("a" : String), ([0] : List ℚ))] : List (String × List ℚ)) ≠ [] ∧
    (0 : ℚ) ≤ 0 ∧
    (∃ l d, 0 ≤ d ∧
      (∃ p ∈ ([(("a" : String), ([0] : List ℚ))] : List (String × List ℚ)),
        p.1 = l ∧ distSq [0] p.2 = d) ∧
      (∀ p ∈ ([(("a" : String), ([0] : List ℚ))] : List (String × List ℚ)),
        d ≤ distSq [0] p.2) ∧
      (identify [0] [("a", [0])] 0 = IdOutcome.identityFound l ↔
        Real.sqrt (d : ℝ) ≤ ((0 : ℚ) : ℝ)) ∧
      (identify [0] [("a", [0])] 0 = IdOutcome.unknown ↔
        ((0 : ℚ) : ℝ) < Real.sqrt (d : ℝ))) :=
  ⟨by simp, le_refl 0, c2_identify_threshold [0] [("a", [0])] 0 (by simp) (le_refl 0)⟩

lemma lookup_append_right {A B : List (String × List ℚ)} {l : String}
    (h : ∀ p ∈ A, p.1 ≠ l) : (A ++ B).lookup l = B.lookup l := by
  induction A with
  | nil => rfl
  | cons a A ih =>
    obtain ⟨k, v⟩ := a
    have hk : (l == k) = false := by
      have := h (k, v) (List.mem_cons_self _ _)
      simp only at this
      exact beq_eq_false_iff_ne.mpr (fun hq => this hq.symm)
    simp only [List.cons_append, List.lookup, hk]
    exact ih (fun p hp => h p (List.mem_cons_of_mem _ hp))

/-- C4: saving a vector twice under the same label and then loading all
entries yields a snapshot with exactly one entry for that label, whose
value is the second vector: at most one persisted vector per label,
last write wins. -/
theorem c4_last_write_wins (store : List (String × List ℚ)) (label : String)
    (v1 v2 : List ℚ) :
    (loadAll (save (save store label v1) label v2)).countP (fun e => e.1 == label) = 1 ∧
    (loadAll (save (save store label v1) label v2)).lookup label = some v2 := by
  have hfe : ∀ p ∈ (save store label v1).filter (fun e => e.1 != label), p.1 ≠ label := by
    intro p hp
    have := (List.mem_filter.mp hp).2
    simpa using this
  constructor
  · rw [loadAll, save, List.countP_append]
    have h0 : ((save store label v1).filter (fun e => e.1 != label)).countP
        (fun e => e.1 == label) = 0 := by
      rw [List.countP_eq_zero]
      intro p hp
      have := hfe p hp
      simpa using this
    rw [h0]
    simp
  · rw [loadAll, save, lookup_append_right hfe]
    simp [List.lookup]

lemma gw_running_owns {n : ℕ} {s : GwState n} (h : GwReachable s) :
    ∀ i : Fin n, s.phase i = Phase.running → s.owner = some i := by
  induction h with
  | init =>
    intro i hi
    simp [gwInit] at hi
  | step hr hs ih =>
    rename_i s s2
    intro j hj
    cases hs with
    | request i s hpi =>
      dsimp only at hj ⊢
      by_cases hij : j = i
      · subst hij
        rw [Function.update_same] at hj
        cases hj
      · rw [Function.update_noteq hij] at hj
        exact ih j hj
    | acquire i s hpi howner =>
      dsimp only at hj ⊢
      by_cases hij : j = i
      · subst hij; rfl
      · rw [Function.update_noteq hij] at hj
        have := ih j hj
        rw [howner] at this
        cases this
    | release i s hpi howner =>
      dsimp only at hj ⊢
      by_cases hij : j = i
      · subst hij
        rw [Function.update_same] at hj
        cases hj
      · rw [Function.update_noteq hij] at hj
        have := ih j hj
        rw [howner] at this
        exact absurd (Option.some.inj this) (fun hq => hij hq.symm)

/-- C5: in every state of the Inference Gateway lock discipline that is
reachable from the initial state, at most one request-handler thread is
inside an inference call against the shared session, for any number of
threads: two threads both in the running phase are equal. -/
theorem c5_gateway_mutual_exclusion {n : ℕ} {s : GwState n} (h : GwReachable s)
    (i j : Fin n) (hi : s.phase i = Phase.running) (hj : s.phase j = Phase.running) :
    i = j := by
  have h1 := gw_running_owns h i hi
  have h2 := gw_running_owns h j hj
  rw [h1] at h2
  exact Option.some.inj h2

/-- A concrete reachable gateway state for two threads in which thread
zero has requested and acquired the lock and is running inference. -/
def gwDemo : GwState 2 :=
  ⟨Function.update (Function.update (gwInit 2).phase 0 Phase.waiting) 0 Phase.running,
    some 0⟩

/-- Witness for C5 at the concrete reachable state gwDemo. -/
theorem c5_gateway_mutual_exclusion_witness :
    GwReachable gwDemo ∧ (0 : Fin 2) = 0 := by
  have hreach : GwReachable gwDemo :=
    GwReachable.step
      (GwReachable.step GwReachable.init (GwStep.request 0 (gwInit 2) rfl))
      (GwStep.acquire 0 _ (by dsimp only; rw [Function.update_same]) rfl)
  refine ⟨hreach, c5_gateway_mutual_exclusion hreach 0 0 ?_ ?_⟩ <;>
    simp [gwDemo]

/-- A character that survives every step of the sanitizer pipeline and
is not removed by the final strip: ASCII, not whitespace, not the path
separator, kept by the safe-character filter, not a strip character. -/
def GoodChar (c : Char) : Prop :=
  c.toNat < 128 ∧ isPySpace c = false ∧ c.toNat ≠ 47 ∧
    isSafeChar c = true ∧ isStripChar c = false

instance (c : Char) : Decidable (GoodChar c) := by
  unfold GoodChar
  infer_instance

lemma goodChar_of_lowerChar {c d : Char} (h : lowerChar c = d) (hd : GoodChar d) :
    GoodChar c := by
  unfold lowerChar at h
  by_cases hc : 65 ≤ c.toNat ∧ c.toNat ≤ 90
  · refine ⟨by omega, ?_, by omega, ?_, ?_⟩
    · simp only [isPySpace, Bool.or_eq_false_iff, decide_eq_false_iff_not]
      omega
    · simp only [isSafeChar, Bool.or_eq_true, Bool.and_eq_true, decide_eq_true_eq]
      omega
    · simp only [isStripChar, Bool.or_eq_false_iff, decide_eq_false_iff_not]
      omega
  · rw [if_neg hc] at h
    rw [h]
    exact hd

lemma mem_extPart_mem (f : String) {c : Char} (hc : c ∈ (extPart f).data) :
    c ∈ f.data := by
  have h1 : c ∈ f.data.reverse.takeWhile (fun c => decide (c ≠ '.')) := by
    simpa [extPart] using hc
  have h2 : c ∈ f.data.reverse := (List.takeWhile_sublist _).mem h1
  exact List.mem_reverse.mp h2

lemma exists_good_of_allowed (f : String) (ha : allowed_file f allowed_set = true) :
    f.data.contains '.' = true ∧ ∃ c ∈ f.data, GoodChar c := by
  unfold allowed_file at ha
  rw [Bool.and_eq_true] at ha
  obtain ⟨hdot, hmem⟩ := ha
  refine ⟨hdot, ?_⟩
  rw [List.elem_iff] at hmem
  have hcase : lowerStr (extPart f) = "png" ∨ lowerStr (extPart f) = "jpg" ∨
      lowerStr (extPart f) = "jpeg" := by
    simpa [allowed_set] using hmem
  have hdata : (extPart f).data.map lowerChar = "png".data ∨
      (extPart f).data.map lowerChar = "jpg".data ∨
      (extPart f).data.map lowerChar = "jpeg".data := by
    rcases hcase with hq | hq | hq
    · exact Or.inl (congrArg String.data hq)
    · exact Or.inr (Or.inl (congrArg String.data hq))
    · exact Or.inr (Or.inr (congrArg String.data hq))
  rcases hext : (extPart f).data with _ | ⟨c0, rest⟩
  · rw [hext] at hdata
    rcases hdata with h | h | h <;> exact absurd h (by decide)
  · rw [hext] at hdata
    have hc0 : lowerChar c0 = 'p' ∨ lowerChar c0 = 'j' := by
      rcases hdata with h | h | h
      · left
        have h2 := congrArg List.head? h
        rw [show ("png".data).head? = some 'p' from rfl] at h2
        simpa using h2
      · right
        have h2 := congrArg List.head? h
        rw [show ("jpg".data).head? = some 'j' from rfl] at h2
        simpa using h2
      · right
        have h2 := congrArg List.head? h
        rw [show ("jpeg".data).head? = some 'j' from rfl] at h2
        simpa using h2
    have hc0good : GoodChar c0 := by
      rcases hc0 with h | h
      · exact goodChar_of_lowerChar h (by decide)
      · exact goodChar_of_lowerChar h (by decide)
    exact ⟨c0, mem_extPart_mem f (by rw [hext]; exact List.mem_cons_self _ _), hc0good⟩

lemma mem_keepAscii {c : Char} {l : List Char} (hc : c ∈ l) (h : c.toNat < 128) :
    c ∈ keepAscii l :=
  List.mem_filter.mpr ⟨hc, by simpa using h⟩

lemma mem_replaceSep {c : Char} {l : List Char} (hc : c ∈ l) (h : c.toNat ≠ 47) :
    c ∈ replaceSep l := by
  unfold replaceSep
  have heq : (if c.toNat = 47 then ' ' else c) = c := if_neg h
  rw [← heq]
  exact List.mem_map_of_mem _ hc

lemma pySplitWs_cons_of_space {a : Char} (rest : List Char) (h : isPySpace a = true) :
    pySplitWs (a :: rest) = pySplitWs rest := by
  simp [pySplitWs, h]

lemma pySplitWs_cons_newpiece {a : Char} {rest : List Char} (ha : isPySpace a = false)
    (hd : rest.head?.elim true isPySpace = true) :
    pySplitWs (a :: rest) = [a] :: pySplitWs rest := by
  simp [pySplitWs, ha, hd]

lemma pySplitWs_cons_attach {a : Char} {rest : List Char} (ha : isPySpace a = false)
    (hd : rest.head?.elim true isPySpace = false) :
    pySplitWs (a :: rest) =
      (a :: (pySplitWs rest).headD []) :: (pySplitWs rest).tail := by
  simp [pySplitWs, ha, hd]

lemma pySplitWs_covers {c : Char} (hc : isPySpace c = false) :
    ∀ l : List Char, c ∈ l → ∃ w ∈ pySplitWs l, c ∈ w := by
  intro l
  induction l with
  | nil => intro h; cases h
  | cons a rest ih =>
    intro hm
    by_cases hsa : isPySpace a = true
    · have hca : c ≠ a := fun h => by rw [h, hsa] at hc; cases hc
      have hmr : c ∈ rest := by
        rcases List.mem_cons.mp hm with rfl | h
        · exact absurd rfl hca
        · exact h
      obtain ⟨w, hw, hcw⟩ := ih hmr
      refine ⟨w, ?_, hcw⟩
      rw [pySplitWs_cons_of_space rest hsa]
      exact hw
    · have hsa2 : isPySpace a = false := by simpa using hsa
      by_cases hnext : rest.head?.elim true isPySpace = true
      · -- the head character starts a fresh piece
        rcases List.mem_cons.mp hm with rfl | hmr
        · refine ⟨[c], ?_, by simp⟩
          rw [pySplitWs_cons_newpiece hsa2 hnext]
          simp
        · obtain ⟨w, hw, hcw⟩ := ih hmr
          refine ⟨w, ?_, hcw⟩
          rw [pySplitWs_cons_newpiece hsa2 hnext]
          exact List.mem_cons_of_mem _ hw
      · -- the head character joins the piece built by the rest
        have hnext2 : rest.head?.elim true isPySpace = false := by simpa using hnext
        rcases List.mem_cons.mp hm with rfl | hmr
        · refine ⟨c :: (pySplitWs rest).headD [], ?_, List.mem_cons_self _ _⟩
          rw [pySplitWs_cons_attach hsa2 hnext2]
          exact List.mem_cons_self _ _
        · obtain ⟨w, hw, hcw⟩ := ih hmr
          rcases hws : pySplitWs rest with _ | ⟨w0, tws⟩
          · rw [hws] at hw
            cases hw
          · rw [hws] at hw
            rcases List.mem_cons.mp hw with rfl | hw2
            · refine ⟨a :: w, ?_, List.mem_cons_of_mem _ hcw⟩
              rw [pySplitWs_cons_attach hsa2 hnext2, hws]
              simp
            · refine ⟨w, ?_, hcw⟩
              rw [pySplitWs_cons_attach hsa2 hnext2, hws]
              exact List.mem_cons_of_mem _ (by simpa using hw2)

lemma mem_joinUnderscore {c : Char} : ∀ {ws : List (List Char)} {w : List Char},
    w ∈ ws → c ∈ w → c ∈ joinUnderscore ws := by
  intro ws
  induction ws with
  | nil => intro w h _; cases h
  | cons w0 tws ih =>
    intro w hw hc
    rcases List.mem_cons.mp hw with rfl | hw2
    · cases tws with
      | nil => simpa [joinUnderscore] using hc
      | cons x xs =>
        simp only [joinUnderscore]
        exact List.mem_append_left _ hc
    · cases tws with
      | nil => cases hw2
      | cons x xs =>
        simp only [joinUnderscore]
        refine List.mem_append_right _ ?_
        exact List.mem_cons_of_mem _ (ih hw2 hc)

lemma dropWhile_mem {p : Char → Bool} {c : Char} :
    ∀ {l : List Char}, c ∈ l → p c = false → c ∈ l.dropWhile p := by
  intro l
  induction l with
  | nil => intro h _; cases h
  | cons a rest ih =>
    intro hm hpc
    by_cases hpa : p a = true
    · rw [List.dropWhile_cons_of_pos hpa]
      rcases List.mem_cons.mp hm with rfl | h
      · rw [hpc] at hpa; cases hpa
      · exact ih h hpc
    · rw [List.dropWhile_cons_of_neg hpa]
      exact hm

lemma mem_stripEnds {c : Char} {l : List Char} (hm : c ∈ l)
    (hs : isStripChar c = false) : c ∈ stripEnds l := by
  unfold stripEnds
  have h1 : c ∈ l.dropWhile isStripChar := dropWhile_mem hm hs
  have h2 : c ∈ (l.dropWhile isStripChar).reverse := List.mem_reverse.mpr h1
  exact List.mem_reverse.mpr (dropWhile_mem h2 hs)

lemma dropWhile_head?_false (p : Char → Bool) :
    ∀ (l : List Char) (c : Char), (l.dropWhile p).head? = some c → p c = false := by
  intro l
  induction l with
  | nil => intro c h; cases h
  | cons a rest ih =>
    intro c h
    by_cases hpa : p a = true
    · rw [List.dropWhile_cons_of_pos hpa] at h
      exact ih c h
    · rw [List.dropWhile_cons_of_neg hpa] at h
      simp only [List.head?_cons, Option.some.injEq] at h
      rw [h] at hpa
      simpa using hpa

lemma stripEnds_head_not (l : List Char) (c : Char)
    (hc : (stripEnds l).head? = some c) : isStripChar c = false := by
  have hdec : l.dropWhile isStripChar =
      stripEnds l ++ ((l.dropWhile isStripChar).reverse.takeWhile isStripChar).reverse := by
    conv_lhs => rw [← List.reverse_reverse (l.dropWhile isStripChar),
      ← List.takeWhile_append_dropWhile isStripChar ((l.dropWhile isStripChar).reverse)]
    rw [List.reverse_append]
    rfl
  rcases hse : stripEnds l with _ | ⟨c0, rest⟩
  · rw [hse] at hc
    cases hc
  · rw [hse] at hc
    simp only [List.head?_cons, Option.some.injEq] at hc
    have hhead : (l.dropWhile isStripChar).head? = some c0 := by
      rw [hdec, hse]
      rfl
    have hres := dropWhile_head?_false isStripChar l c0 hhead
    rwa [hc] at hres

lemma remove_ext_ne_empty (s : List Char) (hne : s ≠ [])
    (hhead : ∀ c, s.head? = some c → isStripChar c = false) :
    remove_file_extension ⟨s⟩ ≠ "" := by
  unfold remove_file_extension
  by_cases hdot : (String.mk s).data.contains '.' = true
  · rw [if_pos hdot]
    intro hcontra
    have hrev : ((s.reverse.dropWhile (fun c => c ≠ '.')).tail).reverse = [] := by
      have := congrArg String.data hcontra
      simpa using this
    have hmemdot : ('.' : Char) ∈ s := by
      rw [List.elem_iff] at hdot
      exact hdot
    have hmemrev : ('.' : Char) ∈ s.reverse := List.mem_reverse.mpr hmemdot
    have hdotdrop : ('.' : Char) ∈ s.reverse.dropWhile (fun c => c ≠ '.') :=
      dropWhile_mem hmemrev (by simp)
    rcases hr : s.reverse.dropWhile (fun c => c ≠ '.') with _ | ⟨c0, rest⟩
    · rw [hr] at hdotdrop
      cases hdotdrop
    · have hc0 : c0 = '.' := by
        have := dropWhile_head?_false (fun c => decide (c ≠ '.')) s.reverse c0
          (by rw [hr]; rfl)
        simpa using this
      have hrest : rest = [] := by
        rw [hr] at hrev
        simpa using hrev
      subst hc0 hrest
      have hsplit : s.reverse = s.reverse.takeWhile (fun c => c ≠ '.') ++ ['.'] := by
        conv_lhs => rw [← List.takeWhile_append_dropWhile
          (fun c => decide (c ≠ '.')) s.reverse, hr]
      have hs2 : s = '.' :: (s.reverse.takeWhile (fun c => c ≠ '.')).reverse := by
        have := congrArg List.reverse hsplit
        simpa using this
      have : isStripChar '.' = false := hhead '.' (by rw [hs2]; rfl)
      simp [isStripChar] at this
  · rw [if_neg hdot]
    intro hcontra
    have := congrArg String.data hcontra
    simp only at this
    exact hne this

lemma label_nonempty_of_allowed (f : String) (ha : allowed_file f allowed_set = true) :
    remove_file_extension (secure_filename f) ≠ "" := by
  obtain ⟨_, c, hcf, hgood⟩ := exists_good_of_allowed f ha
  obtain ⟨h128, hsp, h47, hsafe, hstrip⟩ := hgood
  have h1 : c ∈ keepAscii f.data := mem_keepAscii hcf h128
  have h2 : c ∈ replaceSep (keepAscii f.data) := mem_replaceSep h1 h47
  obtain ⟨w, hw, hcw⟩ := pySplitWs_covers hsp _ h2
  have h4 : c ∈ joinUnderscore (pySplitWs (replaceSep (keepAscii f.data))) :=
    mem_joinUnderscore hw hcw
  have h5 : c ∈ keepSafe (joinUnderscore (pySplitWs (replaceSep (keepAscii f.data)))) :=
    List.mem_filter.mpr ⟨h4, hsafe⟩
  have h6 : c ∈ stripEnds
      (keepSafe (joinUnderscore (pySplitWs (replaceSep (keepAscii f.data))))) :=
    mem_stripEnds h5 hstrip
  exact remove_ext_ne_empty _ (List.ne_nil_of_mem h6)
    (stripEnds_head_not _)

/-- C7: for every successful enrollment, the embedding is persisted
under the label obtained by stripping the file extension from the
sanitized caller-provided filename, and that label is a nonempty
string. -/
theorem c7_label_sanitized_nonempty {Img Emb : Type} [DecidableEq Img]
    (getFace : Img → Option Img) (forwardPass : Img → Emb)
    (req : UploadRequest Img) (crop : Img)
    (hm : req.method = .post) (hff : req.hasFileField = true)
    (hn : req.filename ≠ "") (ha : allowed_file req.filename allowed_set = true)
    (hface : getFace req.content = some crop) :
    Effect.saveEmbeddingE (forwardPass crop)
        (remove_file_extension (secure_filename req.filename)) ∈
      (get_image getFace forwardPass req).2 ∧
    remove_file_extension (secure_filename req.filename) ≠ "" := by
  have htr := get_image_trace_of_face getFace forwardPass req crop
    hm hff hn ha hface
  constructor
  · rw [htr]
    simp
  · exact label_nonempty_of_allowed req.filename ha

/-- Witness for C7 at a concrete enrollment request. -/
theorem c7_label_sanitized_nonempty_witness :
    Effect.saveEmbeddingE (2 : Nat) (remove_file_extension (secure_filename "a b.png")) ∈
      (get_image (fun _ : Nat => some 1) (fun _ => (2 : Nat))
        ⟨.post, true, "a b.png", 7⟩).2 ∧
    remove_file_extension (secure_filename "a b.png") ≠ "" :=
  c7_label_sanitized_nonempty (fun _ : Nat => some 1) (fun _ => (2 : Nat))
    ⟨.post, true, "a b.png", 7⟩ 1 rfl rfl (by decide) (by decide) rfl

end FaceRec
